import Mathlib

/-!
Verification development for the go-jobExecutor repository.

The Go package schedules a list of jobs (external commands or callables)
under a global concurrency cap, either flat (`execute`) or respecting a
directed dependency graph (`dagExecute`), with a Kahn cycle check
(`IsAcyclic`) guarding the public DAG entry point (`DagExecute`).

The definitions below are a shallow embedding of that code:
* a job's mutable record (`job` in job.go) becomes `JobState`; its unit of
  work (the wrapped command or callable, which in Go returns a string and
  an error) is modelled by its deterministic outcome `work : String × Option String`,
  and the ghost field `invoked` records whether the unit of work ran;
* the status bit constants and `IsState` are taken verbatim from job.go;
* `runJob` embeds `(*job).run` (job.go lines 100-146): the dependency gate,
  the work execution, and the terminal status assignment;
* `launchJob` embeds the shared launch pattern of both schedulers
  (acquire slot, stamp start, set Running, run): execute.go lines 50-66
  and 109-127; the sequential functions `flatExecute` / `dagLoop` are the
  deterministic sequential interleaving of the two scheduling loops, in
  which each launched job runs to completion before the loop advances
  (a reachable interleaving of the Go code, whose per-job outcomes are
  interleaving independent because a DAG-scheduled job is launched only
  after its dependencies are terminal);
* `stepDeps`, `kahnLoop`, `initCount`, `initQueue`, `isAcyclic` embed
  `(*JobExecutor).IsAcyclic`; counts live in `Int` exactly as Go's
  `map[int]int` does;
* `DagExecuteModel` / `ExecuteModel` embed the public `DagExecute` and
  `Execute` methods, with the Go error map `JobsError` rendered as an
  association list in index order (Go map iteration order is arbitrary;
  none of the stated properties depend on it);
* a small-step relation `SchedStep` models the concurrency discipline of
  both scheduling loops for the limiter-bound property.
-/

namespace JobExec

/-- Status bit constants, from job.go. -/
def JobStatePending : Nat := 0

def JobStateRunning : Nat := 1

def JobStateDone : Nat := 2

def JobStateSucceed : Nat := 4

def JobStateFailed : Nat := 8

/-- Embedding of `(*job).IsState` (job.go lines 168-178): for the zero flag
the whole composite must be zero, otherwise the bit must be set. -/
def isState (status jobState : Nat) : Bool :=
  if jobState = 0 then status == 0 else (status &&& jobState) != 0

/-- The errors a job can end with: the sentinel `ErrRequiredJobFailed`
(job.go), the sentinel `ErrCyclicDependencyDetected` (jobExecutor.go), or
the error returned by its own unit of work. -/
inductive JobErr where
  | requiredJobFailed
  | cyclicDependency
  | workErr (msg : String)
  deriving DecidableEq, Repr

/-- Message of an error, as Go's `Error()` renders the three cases. -/
def errMessage : JobErr → String
  | JobErr.requiredJobFailed => "required job failed"
  | JobErr.cyclicDependency => "cyclic dependencies detected"
  | JobErr.workErr m => m

/-- Embedding of the `job` struct (job.go): `dependsOn` holds the ids of the
jobs it depends on (ids are dense insertion indices, jobExecutor.go), `work`
is the deterministic outcome of its wrapped command or callable (result
text, optional error), and the remaining fields are its mutable state.
`durationSet` stands for the `Duration` stamp and the ghost flag `invoked`
records whether the unit of work was ever run. -/
structure JobState where
  dependsOn : List Nat
  work : String × Option String
  res : String
  err : Option JobErr
  status : Nat
  durationSet : Bool
  invoked : Bool
  deriving DecidableEq, Repr

/-- A fresh pending job with no dependencies (also the out-of-range default
for indexed access). -/
def dfltJob : JobState :=
  { dependsOn := [], work := ("", none), res := "", err := none,
    status := JobStatePending, durationSet := false, invoked := false }

instance : Inhabited JobState := ⟨dfltJob⟩

/-- The dependency check loop of `(*job).run` (job.go lines 106-112): some
dependency is not in the Succeed state. -/
def hasDepErr (jobs : List JobState) (ds : List Nat) : Bool :=
  ds.any (fun d => ! isState (jobs.getD d dfltJob).status JobStateSucceed)

/-- Embedding of `(*job).run` (job.go lines 100-146). With a non-empty
dependency list whose members are not all Succeeded, the job is marked
Done|Failed with the required-dependency error, duration stamped, work not
invoked; otherwise the unit of work runs, its result and error are
recorded, and the terminal status is assigned from the error. -/
def runJob (jobs : List JobState) (j : JobState) : JobState :=
  if 0 < j.dependsOn.length ∧ hasDepErr jobs j.dependsOn = true then
    { j with err := some JobErr.requiredJobFailed,
             status := JobStateDone ||| JobStateFailed,
             durationSet := true }
  else
    let j1 := { j with res := j.work.1, err := Option.map JobErr.workErr j.work.2,
                       invoked := true }
    { j1 with
      status := if j1.err.isSome then JobStateDone ||| JobStateFailed
                else JobStateDone ||| JobStateSucceed,
      durationSet := true }

/-- The launch step shared by both scheduling loops (execute.go lines 50-66
and 109-127): mark job `i` Running, then run it; in the sequential
interleaving the run completes before the loop advances. -/
def launchJob (js : List JobState) (i : Nat) : List JobState :=
  let j := { js.getD i dfltJob with status := JobStateRunning }
  let js1 := js.set i j
  js1.set i (runJob js1 j)

/-- Embedding of the flat scheduler `execute` (execute.go lines 43-73):
every job is launched in insertion order, gated only by the limiter. -/
def flatExecute (jobs : List JobState) : List JobState :=
  (List.range jobs.length).foldl launchJob jobs

/-- The error aggregation of `(*JobExecutor).Execute` (jobExecutor.go lines
249-265): the non-nil terminal errors, keyed by job index.  The Go map is
rendered as an association list in index order. -/
def collectErrors (jobs : List JobState) : List (Nat × JobErr) :=
  (List.range jobs.length).filterMap
    (fun i => Option.map (fun e => (i, e)) (jobs.getD i dfltJob).err)

/-- Embedding of `JobsError.String()` / `Error()`: the newline-joined list
of the entries' messages (Go: strings.Join with a newline). -/
def jobsErrorString (es : List (Nat × JobErr)) : String :=
  String.intercalate "\n" (es.map (fun p => errMessage p.2))

/-- Embedding of `(*JobExecutor).Execute`: run the flat scheduler and return
the final job states together with the aggregated error map. -/
def ExecuteModel (jobs : List JobState) : List JobState × List (Nat × JobErr) :=
  (flatExecute jobs, collectErrors (flatExecute jobs))

/-! The cycle check `(*JobExecutor).IsAcyclic` (jobExecutor.go lines
1073-1112 of the concatenated source, Kahn's algorithm).  The dependency
data of an executor is the list `deps` whose entry `i` is the list of ids
job `i` depends on.  Counts live in `Int`, as Go's `map[int]int` values do;
a missing key reads as `0`. -/

/-- Dependency list of job `i` (out of range reads as no dependencies). -/
def depsAt (deps : List (List Nat)) (i : Nat) : List Nat :=
  deps.getD i []

/-- The inner loop both Kahn traversals share (jobExecutor.go lines
1102-1108 and execute.go lines 130-139): for each listed id, decrement its
count and enqueue it at the back when the count reaches exactly zero. -/
def stepDeps : List Nat → (Nat → Int) → List Nat → ((Nat → Int) × List Nat)
  | [], count, queue => (count, queue)
  | t :: rest, count, queue =>
      stepDeps rest (fun j => if j = t then count j - 1 else count j)
        (if count t - 1 = 0 then queue ++ [t] else queue)

/-- The outer loop of `IsAcyclic` (jobExecutor.go lines 1097-1109): pop the
queue head, bump the processed counter, decrement the counts of the ids the
popped job depends on.  In Go this is a while loop; the fuel below is an
upper bound on the total number of enqueues (every id enters the queue at
most once, when its count first reaches zero), so the loop always sees the
queue empty before the fuel runs out, exactly as the Go loop ends. -/
def kahnLoop (deps : List (List Nat)) : Nat → List Nat → (Nat → Int) → Nat → Nat
  | _, [], _, index => index
  | 0, _ :: _, _, index => index
  | fuel + 1, a :: rest, count, index =>
      kahnLoop deps fuel (stepDeps (depsAt deps a) count rest).2
        (stepDeps (depsAt deps a) count rest).1 (index + 1)

/-- Ghost companion of `kahnLoop` returning the processed ids in order
(the loop itself only keeps their number). -/
def kahnLoopP (deps : List (List Nat)) : Nat → List Nat → (Nat → Int) → List Nat
  | _, [], _ => []
  | 0, _ :: _, _ => []
  | fuel + 1, a :: rest, count =>
      a :: kahnLoopP deps fuel (stepDeps (depsAt deps a) count rest).2
        (stepDeps (depsAt deps a) count rest).1

/-- One pass of the dependent-count initialisation: bump the count of every
id in the list. -/
def bumpAll (c : Nat → Int) (ds : List Nat) : Nat → Int :=
  ds.foldl (fun c1 t => fun j => if j = t then c1 j + 1 else c1 j) c

/-- The dependent-count map of `IsAcyclic` (jobExecutor.go lines 1081-1087):
for every job and every id it depends on, bump that id's count. -/
def initCount (deps : List (List Nat)) : Nat → Int :=
  deps.foldl bumpAll (fun _ => 0)

/-- The starting queue of `IsAcyclic` (jobExecutor.go lines 1090-1095): the
ids whose dependent count is zero, in id order. -/
def initQueue (deps : List (List Nat)) : List Nat :=
  (List.range deps.length).filter (fun id => initCount deps id == 0)

/-- Fuel dominating every enqueue of the Kahn loop: the initial queue holds
at most one entry per job, and each later enqueue consumes one dependency
entry of a processed job. -/
def kahnFuel (deps : List (List Nat)) : Nat :=
  deps.length + (deps.map List.length).sum

/-- Embedding of `(*JobExecutor).IsAcyclic`: an executor with fewer than one
job is acyclic; otherwise the processed count of the Kahn traversal must
equal the job count. -/
def isAcyclic (deps : List (List Nat)) : Bool :=
  if deps.length < 1 then true
  else kahnLoop deps (kahnFuel deps) (initQueue deps) (initCount deps) 0 == deps.length

/-- The dependency edge relation: `Dep deps i j` holds when job `i` lists
`j` among the jobs it depends on. -/
def Dep (deps : List (List Nat)) (i j : Nat) : Prop :=
  j ∈ depsAt deps i

/-- Well-formed dependency data: every listed id is a job of the set (the
data-model invariant of the executor, whose ids are dense insertion
indices). -/
def WFdeps (deps : List (List Nat)) : Prop :=
  ∀ ds ∈ deps, ∀ d ∈ ds, d < deps.length

/-- The dependency graph has no cycle: no job reaches itself through one or
more dependency edges. -/
def AcyclicDeps (deps : List (List Nat)) : Prop :=
  ∀ i, ¬ Relation.TransGen (Dep deps) i i

/-! The DAG scheduler `dagExecute` (execute.go lines 76-148) and the public
entry point `(*JobExecutor).DagExecute` (jobExecutor.go lines 1114-1137). -/

/-- Dependency ids of job `i` of a job set. -/
def jobDeps (jobs : List JobState) (i : Nat) : List Nat :=
  (jobs.getD i dfltJob).dependsOn

/-- The adjacency list of `dagExecute` (execute.go lines 83-91): the entry
for id `d` lists, in id order and once per occurrence, every job that
depends on `d`. -/
def dagAdj (jobs : List JobState) (d : Nat) : List Nat :=
  (List.range jobs.length).flatMap
    (fun i => (jobDeps jobs i).filterMap (fun t => if t = d then some i else none))

/-- The dependent-count map of `dagExecute` (execute.go lines 85-91): job
`i` is counted once for each of its dependencies. -/
def dagCount (jobs : List JobState) : Nat → Int :=
  fun i => ((jobDeps jobs i).length : Int)

/-- The starting queue of `dagExecute` (execute.go lines 93-98): ids with no
dependencies, in id order. -/
def dagQueue (jobs : List JobState) : List Nat :=
  (List.range jobs.length).filter (fun i => dagCount jobs i == 0)

/-- The scheduling loop of `dagExecute` (execute.go lines 105-140) in its
sequential interleaving: launch and complete the queue head, then consume
its completion, decrementing the counts of its dependents and enqueueing
those that reach zero.  The fuel argument is the job count: it plays the
role of the Go loop bound `for doneJob < len(jobs)`, one unit per consumed
completion.  When the queue empties early (only possible on a cyclic
graph, where the Go loop would block forever on the completion channel;
acyclicity is the documented precondition) the model stops. -/
def dagLoop (adj : Nat → List Nat) : Nat → List Nat → (Nat → Int) → List JobState → List JobState
  | _, [], _, js => js
  | 0, _ :: _, _, js => js
  | fuel + 1, q0 :: rest, count, js =>
      dagLoop adj fuel (stepDeps (adj q0) count rest).2 (stepDeps (adj q0) count rest).1
        (launchJob js q0)

/-- Embedding of `dagExecute` (execute.go lines 76-148). -/
def dagExecuteRun (jobs : List JobState) : List JobState :=
  dagLoop (dagAdj jobs) jobs.length (dagQueue jobs) (dagCount jobs) jobs

/-- Embedding of the public `(*JobExecutor).DagExecute` (jobExecutor.go
lines 1114-1137): when the graph is not acyclic, every job is reported
failed with the cyclic-dependency error and the scheduler is never entered
(the states are returned untouched); otherwise the DAG scheduler runs and
its non-nil terminal errors are aggregated. -/
def DagExecuteModel (jobs : List JobState) : List JobState × List (Nat × JobErr) :=
  if isAcyclic (jobs.map (fun j => j.dependsOn)) = true then
    (dagExecuteRun jobs, collectErrors (dagExecuteRun jobs))
  else
    (jobs, (List.range jobs.length).map (fun i => (i, JobErr.cyclicDependency)))

/-- Embedding of `SetMaxConcurrentJobs` (execute.go lines 20-25): a
non-positive request falls back to the host parallelism. -/
def setMaxConcurrentJobs (n gomaxprocs : Nat) : Nat :=
  if n < 1 then gomaxprocs else n

/-! Small-step interleaving model of the concurrency discipline shared by
`execute` and `dagExecute`.  Each job passes through four observable
actions, in this order in both schedulers:
1. the scheduling loop sends on `limiterChan` (acquire a slot);
2. it sets the job status to Running (execute.go lines 53-56 / 111-114);
3. the goroutine running `(*job).run` assigns the terminal status
   Done|Succeed or Done|Failed (job.go lines 113-118 and 139-145);
4. the deferred `done` callback receives from `limiterChan` (release the
   slot, execute.go line 61 / 120).
Which job is launched next (insertion order for the flat scheduler, queue
order for the DAG scheduler) is left nondeterministic, so every
interleaving of either scheduler is a trace of this relation; the limiter
bound does not depend on the launch order. -/

/-- Phase of one job's goroutine with respect to the limiter. -/
inductive GoroutinePhase where
  | idle
  | acquired
  | running
  | jobDone
  | released
  deriving DecidableEq, Repr

/-- Global state of one scheduling run: per-job status words, per-job
goroutine phases, and the number of limiter slots currently held. -/
structure SchedState where
  statuses : List Nat
  phases : List GoroutinePhase
  tokens : Nat
  deriving Repr

/-- Phases during which a goroutine holds a limiter slot. -/
def holdsSlot (p : GoroutinePhase) : Bool :=
  p == GoroutinePhase.acquired || p == GoroutinePhase.running || p == GoroutinePhase.jobDone

/-- One observable action of either scheduling loop under cap `cap`:
acquiring a slot (blocked while `cap` slots are held), marking a launched
job Running, a run assigning its terminal status, and the deferred release
of the slot. -/
inductive SchedStep (cap : Nat) : SchedState → SchedState → Prop where
  | acquire (s : SchedState) (i : Nat) :
      i < s.phases.length →
      s.phases.getD i GoroutinePhase.released = GoroutinePhase.idle →
      s.tokens < cap →
      SchedStep cap s { s with phases := s.phases.set i GoroutinePhase.acquired,
                               tokens := s.tokens + 1 }
  | start (s : SchedState) (i : Nat) :
      s.phases.getD i GoroutinePhase.released = GoroutinePhase.acquired →
      SchedStep cap s { s with phases := s.phases.set i GoroutinePhase.running,
                               statuses := s.statuses.set i JobStateRunning }
  | finish (s : SchedState) (i : Nat) (st : Nat) :
      s.phases.getD i GoroutinePhase.released = GoroutinePhase.running →
      (st = JobStateDone ||| JobStateSucceed ∨ st = JobStateDone ||| JobStateFailed) →
      SchedStep cap s { s with phases := s.phases.set i GoroutinePhase.jobDone,
                               statuses := s.statuses.set i st }
  | release (s : SchedState) (i : Nat) :
      s.phases.getD i GoroutinePhase.released = GoroutinePhase.jobDone →
      SchedStep cap s { s with phases := s.phases.set i GoroutinePhase.released,
                               tokens := s.tokens - 1 }

/-- Starting state of a run over `n` jobs: all Pending, no slot held. -/
def initSched (n : Nat) : SchedState :=
  { statuses := List.replicate n JobStatePending,
    phases := List.replicate n GoroutinePhase.idle,
    tokens := 0 }

/-- Number of jobs whose status word is in the Running state. -/
def runningCount (s : SchedState) : Nat :=
  s.statuses.countP (fun st => isState st JobStateRunning)

/-- Inductive invariant of a scheduling run: statuses and phases are
aligned, the held-slot count is exactly the number of goroutines between
acquire and release, it never exceeds the cap, and a job whose status is
Running has its goroutine in the running phase. -/
structure SchedInv (cap : Nat) (s : SchedState) : Prop where
  hlen : s.statuses.length = s.phases.length
  htok : s.tokens = s.phases.countP holdsSlot
  hcap : s.tokens ≤ cap
  hrun : ∀ i, i < s.statuses.length →
      isState (s.statuses.getD i JobStatePending) JobStateRunning = true →
      s.phases.getD i GoroutinePhase.released = GoroutinePhase.running

/-- The Done-bit discipline of a status word: when the Done bit is set,
exactly one of the Succeed and Failed bits is set with it. -/
def doneStatusOk (s : Nat) : Prop :=
  isState s JobStateDone = true →
    ((isState s JobStateSucceed = true ∧ isState s JobStateFailed = false) ∨
     (isState s JobStateSucceed = false ∧ isState s JobStateFailed = true))

/-- Multiplicity of `x` among the dependency entries of the processed jobs
`P` (ghost quantity of the Kahn invariant). -/
def procCnt (deps : List (List Nat)) (P : List Nat) (x : Nat) : Int :=
  (P.map (fun p => ((depsAt deps p).count x : Int))).sum

/-- Every job listing `x` among its dependencies is already in `P`:
`x` has no unprocessed dependent (ghost predicate of the Kahn invariant). -/
def depsDone (deps : List (List Nat)) (P : List Nat) (x : Nat) : Prop :=
  ∀ i, i < deps.length → x ∈ depsAt deps i → i ∈ P

/-- Inductive invariant of the Kahn traversal of `IsAcyclic`: `P` is the
list of processed ids in order, `Q` the queue, `count` the live
dependent-count map. -/
structure KInv (deps : List (List Nat)) (P Q : List Nat) (count : Nat → Int) : Prop where
  hc : ∀ x, count x = initCount deps x - procCnt deps P x
  hnd : (P ++ Q).Nodup
  hlt : ∀ x ∈ P ++ Q, x < deps.length
  hqd : ∀ x ∈ Q, depsDone deps P x
  hord : ∀ x ∈ P, ∀ i, i < deps.length → x ∈ depsAt deps i →
      i ∈ P ∧ P.indexOf i < P.indexOf x
  hcl : ∀ x, x < deps.length → depsDone deps P x → x ∈ P ∨ x ∈ Q

/-- What holds of the full processed list once the Kahn queue has drained:
no duplicates, only genuine ids, closure under "all dependents processed",
and every job placed after all of its dependents. -/
def KFinal (deps : List (List Nat)) (T : List Nat) : Prop :=
  T.Nodup ∧ (∀ x ∈ T, x < deps.length) ∧
  (∀ x, x < deps.length → depsDone deps T x → x ∈ T) ∧
  (∀ x ∈ T, ∀ i, i < deps.length → x ∈ depsAt deps i →
      i ∈ T ∧ T.indexOf i < T.indexOf x)

/-! General list helpers used throughout the proofs. -/

theorem getD_set_self {α : Type _} :
    ∀ (l : List α) (i : Nat) (a d : α), i < l.length → (l.set i a).getD i d = a
  | [], i, a, d, h => absurd h (by simp)
  | _ :: _, 0, _, _, _ => rfl
  | _ :: xs, i + 1, a, d, h => getD_set_self xs i a d (by simpa using h)

theorem getD_set_ne {α : Type _} :
    ∀ (l : List α) (i j : Nat) (a d : α), i ≠ j → (l.set i a).getD j d = l.getD j d
  | [], _, _, _, _, _ => rfl
  | _ :: _, 0, 0, _, _, hne => absurd rfl hne
  | _ :: _, 0, _ + 1, _, _, _ => rfl
  | _ :: _, _ + 1, 0, _, _, _ => rfl
  | _ :: xs, i + 1, j + 1, a, d, hne =>
      getD_set_ne xs i j a d (fun h => hne (by omega))

theorem getD_replicate {α : Type _} :
    ∀ (n i : Nat) (a d : α), i < n → (List.replicate n a).getD i d = a
  | 0, i, a, d, h => absurd h (by simp)
  | _ + 1, 0, _, _, _ => rfl
  | n + 1, i + 1, a, d, h => getD_replicate n i a d (by omega)

theorem countP_set_add {α : Type _} :
    ∀ (l : List α) (i : Nat) (a d : α) (p : α → Bool), i < l.length →
      (l.set i a).countP p + (if p (l.getD i d) = true then 1 else 0)
        = l.countP p + (if p a = true then 1 else 0)
  | [], i, a, d, p, h => absurd h (by simp)
  | x :: xs, 0, a, d, p, _ => by
      simp only [List.set, List.getD_cons_zero, List.countP_cons]
      omega
  | x :: xs, i + 1, a, d, p, h => by
      have ih := countP_set_add xs i a d p (by simpa using h)
      simp only [List.set, List.getD_cons_succ, List.countP_cons]
      omega

theorem countP_le_of_pointwise {α β : Type _} :
    ∀ (l1 : List α) (l2 : List β) (p : α → Bool) (q : β → Bool) (d1 : α) (d2 : β),
      l1.length = l2.length →
      (∀ i, i < l1.length → p (l1.getD i d1) = true → q (l2.getD i d2) = true) →
      l1.countP p ≤ l2.countP q
  | [], _, _, _, _, _, _, _ => by simp
  | _ :: _, [], _, _, _, _, hlen, _ => by simp at hlen
  | x :: xs, y :: ys, p, q, d1, d2, hlen, hpt => by
      have ih := countP_le_of_pointwise xs ys p q d1 d2 (by simpa using hlen)
        (fun i hi => hpt (i + 1) (by simpa using hi))
      have h0 := hpt 0 (by simp)
      simp only [List.getD_cons_zero] at h0
      simp only [List.countP_cons]
      cases hpx : p x with
      | false =>
          rw [if_neg (by decide : ¬ (false = true))]
          omega
      | true =>
          rw [h0 hpx]
          omega

/-! The limiter-bound invariant (claim C5). -/

theorem schedInv_init (cap n : Nat) : SchedInv cap (initSched n) := by
  refine ⟨by simp [initSched], ?_, by simp [initSched], ?_⟩
  · simp [initSched, holdsSlot, List.countP_replicate]
  · intro i hi hrun
    exfalso
    rw [initSched] at hi hrun
    simp only at hi hrun
    rw [getD_replicate n i JobStatePending JobStatePending (by simpa using hi)] at hrun
    simp [isState, JobStatePending, JobStateRunning] at hrun

theorem idx_lt_of_getD_phase {s : SchedState} {i : Nat} {v : GoroutinePhase}
    (h : s.phases.getD i GoroutinePhase.released = v) (hv : v ≠ GoroutinePhase.released) :
    i < s.phases.length := by
  by_contra hge
  rw [List.getD_eq_default _ _ (by omega)] at h
  exact hv h.symm

theorem schedInv_step {cap : Nat} {s s2 : SchedState}
    (inv : SchedInv cap s) (h : SchedStep cap s s2) : SchedInv cap s2 := by
  obtain ⟨hlen, htok, hcap, hrun⟩ := inv
  cases h with
  | acquire i hi hph hct =>
      have hcnt := countP_set_add s.phases i GoroutinePhase.acquired
        GoroutinePhase.released holdsSlot hi
      rw [hph] at hcnt
      rw [(by decide : holdsSlot GoroutinePhase.idle = false)] at hcnt
      rw [(by decide : holdsSlot GoroutinePhase.acquired = true)] at hcnt
      norm_num at hcnt
      refine ⟨?_, ?_, ?_, ?_⟩
      · simpa using hlen
      · show s.tokens + 1 = List.countP holdsSlot (s.phases.set i GoroutinePhase.acquired)
        omega
      · show s.tokens + 1 ≤ cap
        omega
      · intro j hj hr
        show (s.phases.set i GoroutinePhase.acquired).getD j GoroutinePhase.released
          = GoroutinePhase.running
        replace hj : j < s.statuses.length := hj
        replace hr : isState (s.statuses.getD j JobStatePending) JobStateRunning = true := hr
        have hprev := hrun j hj hr
        have hne : i ≠ j := by
          intro hij
          rw [hij] at hph
          rw [hph] at hprev
          exact absurd hprev (by decide)
        rw [getD_set_ne _ _ _ _ _ hne]
        exact hprev
  | start i hph =>
      have hi : i < s.phases.length := idx_lt_of_getD_phase hph (by decide)
      have hcnt := countP_set_add s.phases i GoroutinePhase.running
        GoroutinePhase.released holdsSlot hi
      rw [hph] at hcnt
      rw [(by decide : holdsSlot GoroutinePhase.acquired = true)] at hcnt
      rw [(by decide : holdsSlot GoroutinePhase.running = true)] at hcnt
      norm_num at hcnt
      refine ⟨?_, ?_, ?_, ?_⟩
      · show (s.statuses.set i JobStateRunning).length = (s.phases.set i GoroutinePhase.running).length
        simpa using hlen
      · show s.tokens = List.countP holdsSlot (s.phases.set i GoroutinePhase.running)
        omega
      · exact hcap
      · intro j hj hr
        show (s.phases.set i GoroutinePhase.running).getD j GoroutinePhase.released
          = GoroutinePhase.running
        replace hj : j < (s.statuses.set i JobStateRunning).length := hj
        rw [List.length_set] at hj
        by_cases hij : i = j
        · subst hij
          rw [getD_set_self _ _ _ _ hi]
        · replace hr : isState ((s.statuses.set i JobStateRunning).getD j JobStatePending)
              JobStateRunning = true := hr
          rw [getD_set_ne _ _ _ _ _ hij] at hr
          rw [getD_set_ne _ _ _ _ _ hij]
          exact hrun j hj hr
  | finish i st hph hst =>
      have hi : i < s.phases.length := idx_lt_of_getD_phase hph (by decide)
      have hcnt := countP_set_add s.phases i GoroutinePhase.jobDone
        GoroutinePhase.released holdsSlot hi
      rw [hph] at hcnt
      rw [(by decide : holdsSlot GoroutinePhase.running = true)] at hcnt
      rw [(by decide : holdsSlot GoroutinePhase.jobDone = true)] at hcnt
      norm_num at hcnt
      refine ⟨?_, ?_, ?_, ?_⟩
      · show (s.statuses.set i st).length = (s.phases.set i GoroutinePhase.jobDone).length
        simpa using hlen
      · show s.tokens = List.countP holdsSlot (s.phases.set i GoroutinePhase.jobDone)
        omega
      · exact hcap
      · intro j hj hr
        show (s.phases.set i GoroutinePhase.jobDone).getD j GoroutinePhase.released
          = GoroutinePhase.running
        replace hj : j < (s.statuses.set i st).length := hj
        rw [List.length_set] at hj
        replace hr : isState ((s.statuses.set i st).getD j JobStatePending)
            JobStateRunning = true := hr
        by_cases hij : i = j
        · exfalso
          subst hij
          rw [getD_set_self _ _ _ _ (by omega)] at hr
          rcases hst with h6 | h10
          · rw [h6] at hr
            exact absurd hr (by decide)
          · rw [h10] at hr
            exact absurd hr (by decide)
        · rw [getD_set_ne _ _ _ _ _ hij] at hr
          rw [getD_set_ne _ _ _ _ _ hij]
          exact hrun j hj hr
  | release i hph =>
      have hi : i < s.phases.length := idx_lt_of_getD_phase hph (by decide)
      have hcnt := countP_set_add s.phases i GoroutinePhase.released
        GoroutinePhase.released holdsSlot hi
      rw [hph] at hcnt
      rw [(by decide : holdsSlot GoroutinePhase.jobDone = true)] at hcnt
      rw [(by decide : holdsSlot GoroutinePhase.released = false)] at hcnt
      norm_num at hcnt
      refine ⟨?_, ?_, ?_, ?_⟩
      · show s.statuses.length = (s.phases.set i GoroutinePhase.released).length
        simpa using hlen
      · show s.tokens - 1 = List.countP holdsSlot (s.phases.set i GoroutinePhase.released)
        omega
      · show s.tokens - 1 ≤ cap
        omega
      · intro j hj hr
        show (s.phases.set i GoroutinePhase.released).getD j GoroutinePhase.released
          = GoroutinePhase.running
        replace hj : j < s.statuses.length := hj
        replace hr : isState (s.statuses.getD j JobStatePending) JobStateRunning = true := hr
        have hprev := hrun j hj hr
        have hne : i ≠ j := by
          intro hij
          rw [hij] at hph
          rw [hph] at hprev
          exact absurd hprev (by decide)
        rw [getD_set_ne _ _ _ _ _ hne]
        exact hprev

theorem schedInv_reach {cap : Nat} {s0 s : SchedState} (h0 : SchedInv cap s0)
    (h : Relation.ReflTransGen (SchedStep cap) s0 s) : SchedInv cap s := by
  induction h with
  | refl => exact h0
  | tail _ hbc ih => exact schedInv_step ih hbc

theorem runningCount_le_of_inv {cap : Nat} {s : SchedState}
    (inv : SchedInv cap s) : runningCount s ≤ cap := by
  have h1 : runningCount s ≤ s.phases.countP (fun p => p == GoroutinePhase.running) := by
    refine countP_le_of_pointwise s.statuses s.phases _ _
      JobStatePending GoroutinePhase.released inv.hlen ?_
    intro i hi hr
    rw [inv.hrun i hi hr]
    rfl
  have h2 : s.phases.countP (fun p => p == GoroutinePhase.running)
      ≤ s.phases.countP holdsSlot := by
    refine List.countP_mono_left ?_
    intro p _ hp
    have : p = GoroutinePhase.running := by
      simpa using hp
    rw [this]
    rfl
  have h3 := inv.htok
  have h4 := inv.hcap
  omega

/-- C5: for every job set and every cap configured for the limiter, at
every instant of a flat or DAG scheduling run — every state reachable from
the initial all-Pending state by the schedulers' observable actions
(acquire a limiter slot, mark Running, assign the terminal status, release
the slot) — the number of jobs simultaneously in the Running state never
exceeds the cap. -/
theorem running_jobs_le_cap (cap n : Nat) (s : SchedState)
    (h : Relation.ReflTransGen (SchedStep cap) (initSched n) s) :
    runningCount s ≤ cap :=
  runningCount_le_of_inv (schedInv_reach (schedInv_init cap n) h)

/-- Witness for C5: with cap 1 over two jobs, the state reached by
acquiring a slot for job 0 and marking it Running has one running job,
within the cap. -/
theorem running_jobs_le_cap_witness :
    runningCount { statuses := [JobStateRunning, JobStatePending],
                   phases := [GoroutinePhase.running, GoroutinePhase.idle],
                   tokens := 1 } ≤ 1 :=
  running_jobs_le_cap 1 2 _
    (Relation.ReflTransGen.tail
      (Relation.ReflTransGen.tail Relation.ReflTransGen.refl
        (SchedStep.acquire (initSched 2) 0 (by decide) (by decide) (by decide)))
      (SchedStep.start _ 0 (by decide)))

/-! Basic facts about `runJob` and the flat scheduler. -/

theorem hasDepErr_iff (jobs : List JobState) (ds : List Nat) :
    hasDepErr jobs ds = true ↔
      ∃ d ∈ ds, isState (jobs.getD d dfltJob).status JobStateSucceed = false := by
  simp [hasDepErr, List.any_eq_true]

theorem runJob_status_cases (js : List JobState) (j : JobState) :
    (runJob js j).status = JobStateDone ||| JobStateSucceed ∨
    (runJob js j).status = JobStateDone ||| JobStateFailed := by
  unfold runJob
  split
  · right
    rfl
  · dsimp only
    split
    · right
      rfl
    · left
      rfl

theorem runJob_err_iff_failed (js : List JobState) (j : JobState) :
    (runJob js j).err.isSome = true ↔
      (runJob js j).status = JobStateDone ||| JobStateFailed := by
  unfold runJob
  split
  · simp
  · dsimp only
    split
    · next heq => simp [heq, JobStateDone, JobStateFailed]
    · next heq =>
        simp only [Bool.not_eq_true] at heq
        simp [heq, JobStateDone, JobStateFailed, JobStateSucceed]

/-- C10: the terminal assignment of `run` replaces the whole status word:
a completed run leaves exactly Done|Succeed or Done|Failed (never an
accumulation with the Running bit), so a terminal job is never in the
Running state. -/
theorem runJob_terminal_replaces_status (js : List JobState) (j : JobState) :
    ((runJob js j).status = JobStateDone ||| JobStateSucceed ∨
     (runJob js j).status = JobStateDone ||| JobStateFailed) ∧
    isState (runJob js j).status JobStateRunning = false := by
  refine ⟨runJob_status_cases js j, ?_⟩
  rcases runJob_status_cases js j with h | h <;> rw [h] <;> decide

/-- C8: the IsState contract: the Pending flag (zero) tests the whole word
for zero, any other flag tests its bit, and the Done flag is set for both
terminal outcomes. -/
theorem isState_contract (s flag : Nat) (hflag : flag ≠ JobStatePending) :
    (isState s JobStatePending = true ↔ s = 0) ∧
    (isState s flag = true ↔ s &&& flag ≠ 0) ∧
    isState (JobStateDone ||| JobStateSucceed) JobStateDone = true ∧
    isState (JobStateDone ||| JobStateFailed) JobStateDone = true := by
  have h0 : flag ≠ 0 := by simpa [JobStatePending] using hflag
  refine ⟨?_, ?_, by decide, by decide⟩
  · simp [isState, JobStatePending]
  · simp [isState, h0]

/-- Witness for C8 at the composite Done|Succeed and the Done flag. -/
theorem isState_contract_witness :
    JobStateDone ≠ JobStatePending ∧
    ((isState 6 JobStatePending = true ↔ (6 : Nat) = 0) ∧
     (isState 6 JobStateDone = true ↔ (6 : Nat) &&& JobStateDone ≠ 0) ∧
     isState (JobStateDone ||| JobStateSucceed) JobStateDone = true ∧
     isState (JobStateDone ||| JobStateFailed) JobStateDone = true) :=
  ⟨by decide, isState_contract 6 JobStateDone (by decide)⟩

/-- C3: whenever `run` starts a job with a non-empty dependency list of
which some member is not in the Succeed state, the job is marked
Done|Failed with the dedicated required-dependency error, its duration is
stamped, and its unit of work is not invoked (the invoked flag and the
result text are left exactly as they were, so a fresh job's result stays
empty). -/
theorem runJob_dep_failure (jobs : List JobState) (j : JobState)
    (hne : j.dependsOn ≠ [])
    (hdep : ∃ d ∈ j.dependsOn,
      isState (jobs.getD d dfltJob).status JobStateSucceed = false) :
    (runJob jobs j).err = some JobErr.requiredJobFailed ∧
    (runJob jobs j).status = JobStateDone ||| JobStateFailed ∧
    (runJob jobs j).durationSet = true ∧
    (runJob jobs j).invoked = j.invoked ∧
    (runJob jobs j).res = j.res := by
  have hcond : 0 < j.dependsOn.length ∧ hasDepErr jobs j.dependsOn = true := by
    refine ⟨?_, (hasDepErr_iff jobs j.dependsOn).mpr hdep⟩
    cases hd : j.dependsOn with
    | nil => exact absurd hd hne
    | cons a l => simp
  rw [runJob, if_pos hcond]
  exact ⟨rfl, rfl, rfl, rfl, rfl⟩

/-- Witness for C3: a fresh job depending on the still-pending job 0 is
failed with the required-dependency error without running its work. -/
theorem runJob_dep_failure_witness :
    ({ dfltJob with dependsOn := [0] } : JobState).dependsOn ≠ [] ∧
    (∃ d ∈ ({ dfltJob with dependsOn := [0] } : JobState).dependsOn,
      isState (([dfltJob] : List JobState).getD d dfltJob).status JobStateSucceed = false) ∧
    ((runJob [dfltJob] { dfltJob with dependsOn := [0] }).err
        = some JobErr.requiredJobFailed ∧
     (runJob [dfltJob] { dfltJob with dependsOn := [0] }).status
        = JobStateDone ||| JobStateFailed ∧
     (runJob [dfltJob] { dfltJob with dependsOn := [0] }).durationSet = true ∧
     (runJob [dfltJob] { dfltJob with dependsOn := [0] }).invoked
        = ({ dfltJob with dependsOn := [0] } : JobState).invoked ∧
     (runJob [dfltJob] { dfltJob with dependsOn := [0] }).res
        = ({ dfltJob with dependsOn := [0] } : JobState).res) :=
  ⟨by decide, ⟨0, by decide, by decide⟩,
    runJob_dep_failure [dfltJob] { dfltJob with dependsOn := [0] }
      (by decide) ⟨0, by decide, by decide⟩⟩

/-! Position bookkeeping for the schedulers' fold. -/

theorem length_launchJob (js : List JobState) (i : Nat) :
    (launchJob js i).length = js.length := by
  simp [launchJob]

theorem length_foldl_launch :
    ∀ (l : List Nat) (js : List JobState), (l.foldl launchJob js).length = js.length
  | [], js => rfl
  | i :: l, js => by
      rw [List.foldl_cons, length_foldl_launch l, length_launchJob]

theorem foldl_launch_getD :
    ∀ (l : List Nat) (js : List JobState), l.Nodup → (∀ x ∈ l, x < js.length) →
      ∀ i, (i ∈ l → ∃ js2 j2, (l.foldl launchJob js).getD i dfltJob = runJob js2 j2) ∧
        (i ∉ l → (l.foldl launchJob js).getD i dfltJob = js.getD i dfltJob)
  | [], js, _, _, i => ⟨fun h => absurd h (by simp), fun _ => rfl⟩
  | i0 :: l, js, hnd, hbd, i => by
      have hnd2 : l.Nodup := hnd.of_cons
      have hi0l : i0 ∉ l := by
        have := List.nodup_cons.mp hnd
        exact this.1
      have hi0 : i0 < js.length := hbd i0 (by simp)
      have hbd2 : ∀ x ∈ l, x < (launchJob js i0).length := by
        intro x hx
        rw [length_launchJob]
        exact hbd x (by simp [hx])
      have ih := foldl_launch_getD l (launchJob js i0) hnd2 hbd2
      rw [List.foldl_cons]
      refine ⟨?_, ?_⟩
      · intro hmem
        rcases List.mem_cons.mp hmem with heq | hl
        · subst heq
          rw [(ih i).2 hi0l]
          simp only [launchJob]
          refine ⟨_, _, getD_set_self _ _ _ _ ?_⟩
          simpa using hi0
        · exact (ih i).1 hl
      · intro hnmem
        have hne : i0 ≠ i := fun h => hnmem (by simp [h])
        have hnl : i ∉ l := fun h => hnmem (by simp [h])
        rw [(ih i).2 hnl, launchJob]
        rw [getD_set_ne _ _ _ _ _ hne, getD_set_ne _ _ _ _ _ hne]

theorem flatExecute_getD_runJob (jobs : List JobState) (i : Nat) (hi : i < jobs.length) :
    ∃ js2 j2, (flatExecute jobs).getD i dfltJob = runJob js2 j2 := by
  have h := foldl_launch_getD (List.range jobs.length) jobs (List.nodup_range jobs.length)
    (fun x hx => List.mem_range.mp hx) i
  exact h.1 (List.mem_range.mpr hi)

/-- Counterexample for C4: a flat run of two jobs, job 0 failing and job 1
declaring a dependency on job 0 — job 1's wrapped callable is never
invoked, so the flat scheduler does not run every unit of work regardless
of the states of the jobs it depends on. -/
theorem flat_invokes_all_counterexample :
    ¬ (∀ j ∈ flatExecute
        [{ dfltJob with work := ("", some "boom") },
         { dfltJob with dependsOn := [0], work := ("ok", none) }],
        j.invoked = true) := by
  decide

theorem runJob_invoked_iff (js : List JobState) (j : JobState)
    (hinv : j.invoked = false) :
    (runJob js j).invoked = true ↔
      (j.dependsOn = [] ∨
        ∀ d ∈ j.dependsOn, isState (js.getD d dfltJob).status JobStateSucceed = true) := by
  unfold runJob
  split
  · next hcond =>
      obtain ⟨hlen, herr⟩ := hcond
      obtain ⟨d, hd, hdf⟩ := (hasDepErr_iff js j.dependsOn).mp herr
      simp only [hinv]
      constructor
      · intro h
        exact absurd h (by decide)
      · rintro (h | h)
        · rw [h] at hlen
          exact absurd hlen (by decide)
        · rw [h d hd] at hdf
          exact absurd hdf (by decide)
  · next hcond =>
      rw [not_and_or] at hcond
      simp only [true_iff]
      rcases hcond with h | h
      · left
        cases hd : j.dependsOn with
        | nil => rfl
        | cons a l => exact absurd (by simp [hd]) h
      · right
        intro d hd
        have hfalse : hasDepErr js j.dependsOn = false := by
          cases hh : hasDepErr js j.dependsOn with
          | false => rfl
          | true => exact absurd hh h
        by_contra hds
        have : hasDepErr js j.dependsOn = true :=
          (hasDepErr_iff js j.dependsOn).mpr
            ⟨d, hd, by
              cases hs : isState (js.getD d dfltJob).status JobStateSucceed with
              | false => rfl
              | true => exact absurd hs hds⟩
        rw [this] at hfalse
        exact absurd hfalse (by decide)

/-- C4 as amended: the flat scheduler launches every job and drives it to a
terminal state, ignoring dependency edges in its scheduling; but each job's
run still performs the dependency gate, so a job's wrapped command or
callable is invoked exactly when its dependency list is empty or every
dependency is in the Succeed state when the job runs. -/
theorem flat_runs_all_but_run_gates_on_deps :
    (∀ (jobs : List JobState) (i : Nat), i < jobs.length →
      (((flatExecute jobs).getD i dfltJob).status = JobStateDone ||| JobStateSucceed ∨
       ((flatExecute jobs).getD i dfltJob).status = JobStateDone ||| JobStateFailed)) ∧
    (∀ (js : List JobState) (j : JobState), j.invoked = false →
      ((runJob js j).invoked = true ↔
        (j.dependsOn = [] ∨
          ∀ d ∈ j.dependsOn, isState (js.getD d dfltJob).status JobStateSucceed = true))) := by
  refine ⟨?_, fun js j hinv => runJob_invoked_iff js j hinv⟩
  intro jobs i hi
  obtain ⟨js2, j2, heq⟩ := flatExecute_getD_runJob jobs i hi
  rw [heq]
  exact runJob_status_cases js2 j2

/-! The error aggregation (claim C9). -/

theorem length_filterMap_eq_countP {α β : Type _} (f : α → Option β) :
    ∀ l : List α, (l.filterMap f).length = l.countP (fun a => (f a).isSome)
  | [] => rfl
  | x :: l => by
      rw [List.filterMap_cons, List.countP_cons]
      cases hfx : f x with
      | none => simp [hfx, length_filterMap_eq_countP f l]
      | some b => simp [hfx, length_filterMap_eq_countP f l]

theorem map_getD_range {α : Type _} (d : α) :
    ∀ l : List α, (List.range l.length).map (fun i => l.getD i d) = l
  | [] => rfl
  | x :: l => by
      have ih := map_getD_range d l
      rw [List.length_cons, List.range_succ_eq_map, List.map_cons, List.map_map]
      simp only [Function.comp, List.getD_cons_zero, List.getD_cons_succ]
      rw [show (fun i => l.getD i d) = fun i => l.getD i d from rfl] at ih
      exact congrArg (x :: ·) ih

theorem runJob_failed_bit (js : List JobState) (j : JobState) :
    (isState (runJob js j).status JobStateFailed = true) ↔
      (runJob js j).err.isSome = true := by
  rw [runJob_err_iff_failed]
  rcases runJob_status_cases js j with h | h <;> rw [h] <;> decide

/-- C9: for a flat scheduling run, the returned error map has an entry at
index `i` exactly when job `i` ended with a non-nil error, its size equals
the number of jobs whose terminal state is Failed (successful jobs get no
entry), and its textual form is the newline-joined list of the individual
error messages. -/
theorem execute_error_map_spec (jobs : List JobState) :
    (∀ i e, (i, e) ∈ (ExecuteModel jobs).2 ↔
      (i < jobs.length ∧ ((ExecuteModel jobs).1.getD i dfltJob).err = some e)) ∧
    ((ExecuteModel jobs).2.length =
      ((ExecuteModel jobs).1.filter (fun j => isState j.status JobStateFailed)).length) ∧
    (jobsErrorString (ExecuteModel jobs).2 =
      String.intercalate "\n" ((ExecuteModel jobs).2.map (fun p => errMessage p.2))) := by
  have hlen : (flatExecute jobs).length = jobs.length := length_foldl_launch _ _
  refine ⟨?_, ?_, rfl⟩
  · intro i e
    show (i, e) ∈ collectErrors (flatExecute jobs) ↔ _
    rw [collectErrors]
    rw [List.mem_filterMap]
    constructor
    · rintro ⟨a, ha, hmap⟩
      rcases Option.map_eq_some'.mp hmap with ⟨x, hx, hfx⟩
      have hai : a = i := congrArg Prod.fst hfx
      have hxe : x = e := congrArg Prod.snd hfx
      subst hai
      subst hxe
      exact ⟨by rw [← hlen]; exact List.mem_range.mp ha, hx⟩
    · rintro ⟨hi, herr⟩
      exact ⟨i, List.mem_range.mpr (by rw [hlen]; exact hi),
        Option.map_eq_some'.mpr ⟨e, herr, rfl⟩⟩
  · show (collectErrors (flatExecute jobs)).length = _
    rw [collectErrors, length_filterMap_eq_countP]
    have h1 : (List.range (flatExecute jobs).length).countP
        (fun a => (Option.map (fun e => (a, e)) ((flatExecute jobs).getD a dfltJob).err).isSome)
        = (List.range (flatExecute jobs).length).countP
            (fun a => ((flatExecute jobs).getD a dfltJob).err.isSome) := by
      refine List.countP_congr ?_
      intro a _
      simp
    have h2 : (List.range (flatExecute jobs).length).countP
        (fun a => ((flatExecute jobs).getD a dfltJob).err.isSome)
        = (List.range (flatExecute jobs).length).countP
            (fun a => isState ((flatExecute jobs).getD a dfltJob).status JobStateFailed) := by
      refine List.countP_congr ?_
      intro a hmem
      have ha : a < jobs.length := by
        rw [← hlen]
        exact List.mem_range.mp hmem
      obtain ⟨js2, j2, heq⟩ := flatExecute_getD_runJob jobs a ha
      rw [heq]
      exact (runJob_failed_bit js2 j2).symm
    have h3 := List.countP_map
      (fun j : JobState => isState j.status JobStateFailed)
      (fun i => (flatExecute jobs).getD i dfltJob)
      (List.range (flatExecute jobs).length)
    rw [map_getD_range dfltJob (flatExecute jobs)] at h3
    have h4 : List.countP
        ((fun j : JobState => isState j.status JobStateFailed)
          ∘ fun i => (flatExecute jobs).getD i dfltJob)
        (List.range (flatExecute jobs).length)
        = (List.range (flatExecute jobs).length).countP
            (fun a => isState ((flatExecute jobs).getD a dfltJob).status JobStateFailed) := rfl
    rw [h4] at h3
    rw [h1, h2, ← h3]
    show (flatExecute jobs).countP _ = ((flatExecute jobs).filter _).length
    exact List.countP_eq_length_filter _ _

/-! Preservation of a per-job predicate by both scheduling loops
(claim C7). -/

theorem mem_launchJob (js : List JobState) (i : Nat) (x : JobState)
    (hx : x ∈ launchJob js i) :
    x ∈ js ∨ x = { js.getD i dfltJob with status := JobStateRunning } ∨
      ∃ js2 j2, x = runJob js2 j2 := by
  simp only [launchJob] at hx
  rcases List.mem_or_eq_of_mem_set hx with hx1 | hx1
  · rcases List.mem_or_eq_of_mem_set hx1 with hx2 | hx2
    · exact Or.inl hx2
    · exact Or.inr (Or.inl hx2)
  · exact Or.inr (Or.inr ⟨_, _, hx1⟩)

theorem foldl_launch_pred (P : JobState → Prop)
    (hP1 : ∀ js2 j2, P (runJob js2 j2))
    (hP2 : ∀ j : JobState, P { j with status := JobStateRunning }) :
    ∀ (l : List Nat) (js : List JobState), (∀ x ∈ js, P x) →
      ∀ x ∈ l.foldl launchJob js, P x
  | [], _, hjs, x, hx => hjs x hx
  | i :: l, js, hjs, x, hx => by
      refine foldl_launch_pred P hP1 hP2 l (launchJob js i) ?_ x
        (by rwa [List.foldl_cons] at hx)
      intro y hy
      rcases mem_launchJob js i y hy with h | h | h
      · exact hjs y h
      · rw [h]
        exact hP2 _
      · obtain ⟨a, b, rfl⟩ := h
        exact hP1 a b

theorem dagLoop_pred (adj : Nat → List Nat) (P : JobState → Prop)
    (hP1 : ∀ js2 j2, P (runJob js2 j2))
    (hP2 : ∀ j : JobState, P { j with status := JobStateRunning }) :
    ∀ (fuel : Nat) (Q : List Nat) (count : Nat → Int) (js : List JobState),
      (∀ x ∈ js, P x) → ∀ x ∈ dagLoop adj fuel Q count js, P x
  | fuel, [], count, js, hjs, x, hx => by
      have hq : dagLoop adj fuel [] count js = js := by cases fuel <;> rfl
      rw [hq] at hx
      exact hjs x hx
  | 0, _ :: _, _, js, hjs, x, hx => hjs x hx
  | fuel + 1, q :: rest, count, js, hjs, x, hx => by
      have hun : dagLoop adj (fuel + 1) (q :: rest) count js
          = dagLoop adj fuel (stepDeps (adj q) count rest).2
              (stepDeps (adj q) count rest).1 (launchJob js q) := rfl
      rw [hun] at hx
      refine dagLoop_pred adj P hP1 hP2 fuel _ _ (launchJob js q) ?_ x hx
      intro y hy
      rcases mem_launchJob js q y hy with h | h | h
      · exact hjs y h
      · rw [h]
        exact hP2 _
      · obtain ⟨a, b, rfl⟩ := h
        exact hP1 a b

/-- C7: across every operation of both schedulers — normal completion and
dependency-failure marking alike — a job whose status carries the Done bit
carries exactly one of the Succeed and Failed bits: never both, never
neither. -/
theorem done_implies_exactly_one_outcome (jobs : List JobState)
    (hinit : ∀ j ∈ jobs, j.status = JobStatePending) :
    (∀ j ∈ flatExecute jobs, doneStatusOk j.status) ∧
    (∀ j ∈ (DagExecuteModel jobs).1, doneStatusOk j.status) := by
  have hP1 : ∀ (js2 : List JobState) (j2 : JobState), doneStatusOk (runJob js2 j2).status := by
    intro js2 j2
    rcases runJob_status_cases js2 j2 with h | h <;> rw [h] <;> intro _
    · left
      exact ⟨by decide, by decide⟩
    · right
      exact ⟨by decide, by decide⟩
  have hP2 : ∀ j : JobState, doneStatusOk ({ j with status := JobStateRunning } : JobState).status := by
    intro j
    show doneStatusOk JobStateRunning
    intro hdone
    exact absurd hdone (by decide)
  have hbase : ∀ x ∈ jobs, doneStatusOk x.status := by
    intro x hx
    rw [hinit x hx]
    intro hdone
    exact absurd hdone (by decide)
  refine ⟨foldl_launch_pred _ hP1 hP2 _ jobs hbase, ?_⟩
  rw [DagExecuteModel]
  split
  · exact dagLoop_pred (dagAdj jobs) _ hP1 hP2 jobs.length (dagQueue jobs)
      (dagCount jobs) jobs hbase
  · exact hbase

/-- Witness for C7 on a one-job set. -/
theorem done_implies_exactly_one_outcome_witness :
    (∀ j ∈ ([dfltJob] : List JobState), j.status = JobStatePending) ∧
    ((∀ j ∈ flatExecute [dfltJob], doneStatusOk j.status) ∧
     (∀ j ∈ (DagExecuteModel [dfltJob]).1, doneStatusOk j.status)) :=
  ⟨by decide, done_implies_exactly_one_outcome [dfltJob] (by decide)⟩

/-! A dependency-free job set is scheduled identically by both schedulers
(claim C6). -/

theorem foldl_bumpAll_all_nil :
    ∀ (L : List (List Nat)) (c : Nat → Int), (∀ ds ∈ L, ds = []) → L.foldl bumpAll c = c
  | [], _, _ => rfl
  | ds :: L, c, h => by
      have hds : ds = [] := h ds (by simp)
      rw [List.foldl_cons, hds]
      exact foldl_bumpAll_all_nil L (bumpAll c []) (fun x hx => h x (by simp [hx]))

theorem depsAt_no_deps (deps : List (List Nat)) (h : ∀ ds ∈ deps, ds = []) :
    ∀ a, depsAt deps a = [] := by
  intro a
  rw [depsAt]
  by_cases ha : a < deps.length
  · refine h _ ?_
    rw [List.getD_eq_getElem _ _ ha]
    exact List.getElem_mem ha
  · exact List.getD_eq_default _ _ (by omega)

theorem kahnLoop_no_deps (deps : List (List Nat)) (h : ∀ a, depsAt deps a = []) :
    ∀ (Q : List Nat) (fuel : Nat) (count : Nat → Int) (idx : Nat), Q.length ≤ fuel →
      kahnLoop deps fuel Q count idx = idx + Q.length
  | [], fuel, count, idx, _ => by cases fuel <;> rfl
  | _ :: _, 0, _, _, hlen => by simp at hlen
  | q :: rest, fuel + 1, count, idx, hlen => by
      have hun : kahnLoop deps (fuel + 1) (q :: rest) count idx
          = kahnLoop deps fuel (stepDeps (depsAt deps q) count rest).2
              (stepDeps (depsAt deps q) count rest).1 (idx + 1) := rfl
      rw [hun, h q]
      have := kahnLoop_no_deps deps h rest fuel count (idx + 1) (by simpa using hlen)
      rw [show (stepDeps [] count rest).2 = rest from rfl,
        show (stepDeps [] count rest).1 = count from rfl, this]
      simp [Nat.add_assoc, Nat.add_comm 1 rest.length]

theorem isAcyclic_of_no_deps (deps : List (List Nat)) (h : ∀ ds ∈ deps, ds = []) :
    isAcyclic deps = true := by
  rw [isAcyclic]
  split
  · rfl
  · have hic : initCount deps = fun _ => (0 : Int) := foldl_bumpAll_all_nil deps _ h
    have hq : initQueue deps = List.range deps.length := by
      rw [initQueue]
      refine List.filter_eq_self.mpr ?_
      intro a _
      rw [hic]
      rfl
    rw [hq, kahnLoop_no_deps deps (depsAt_no_deps deps h) _ _ _ _ ?_]
    · simp
    · rw [List.length_range, kahnFuel]
      omega

theorem dagLoop_no_adj (adj : Nat → List Nat) (hadj : ∀ q, adj q = []) :
    ∀ (Q : List Nat) (fuel : Nat) (count : Nat → Int) (js : List JobState),
      Q.length ≤ fuel → dagLoop adj fuel Q count js = Q.foldl launchJob js
  | [], fuel, count, js, _ => by cases fuel <;> rfl
  | _ :: _, 0, _, _, hlen => by simp at hlen
  | q :: rest, fuel + 1, count, js, hlen => by
      have hun : dagLoop adj (fuel + 1) (q :: rest) count js
          = dagLoop adj fuel (stepDeps (adj q) count rest).2
              (stepDeps (adj q) count rest).1 (launchJob js q) := rfl
      rw [hun, hadj q]
      rw [show (stepDeps [] count rest).2 = rest from rfl,
        show (stepDeps [] count rest).1 = count from rfl]
      rw [dagLoop_no_adj adj hadj rest fuel count (launchJob js q) (by simpa using hlen)]
      rfl

/-- C6: a job set with zero declared dependencies produces identical
per-job outcomes and an identical error map whether run through the flat
scheduler or the DAG scheduler. -/
theorem dag_equals_flat_without_deps (jobs : List JobState)
    (hdeps : ∀ j ∈ jobs, j.dependsOn = []) :
    DagExecuteModel jobs = ExecuteModel jobs := by
  have hmap : ∀ ds ∈ jobs.map (fun j => j.dependsOn), ds = [] := by
    intro ds hds
    obtain ⟨j, hj, rfl⟩ := List.mem_map.mp hds
    exact hdeps j hj
  have hacy : isAcyclic (jobs.map (fun j => j.dependsOn)) = true :=
    isAcyclic_of_no_deps _ hmap
  have hjd : ∀ i, jobDeps jobs i = [] := by
    intro i
    rw [jobDeps]
    by_cases hi : i < jobs.length
    · refine hdeps _ ?_
      rw [List.getD_eq_getElem _ _ hi]
      exact List.getElem_mem hi
    · rw [List.getD_eq_default _ _ (by omega)]
      rfl
  have hadj : ∀ d, dagAdj jobs d = [] := by
    intro d
    rw [dagAdj]
    refine List.flatMap_eq_nil_iff.mpr ?_
    intro i _
    rw [hjd i]
    rfl
  have hcnt : dagCount jobs = fun _ => (0 : Int) := by
    funext i
    rw [dagCount, hjd i]
    rfl
  have hq : dagQueue jobs = List.range jobs.length := by
    rw [dagQueue]
    refine List.filter_eq_self.mpr ?_
    intro a _
    rw [hcnt]
    rfl
  have hrun : dagExecuteRun jobs = flatExecute jobs := by
    rw [dagExecuteRun, hq, hcnt, flatExecute]
    exact dagLoop_no_adj _ hadj (List.range jobs.length) jobs.length _ jobs (by simp)
  rw [DagExecuteModel, if_pos hacy, hrun]
  rfl

/-- Witness for C6 on a two-job dependency-free set with one failing job. -/
theorem dag_equals_flat_without_deps_witness :
    (∀ j ∈ ([dfltJob, { dfltJob with work := ("", some "x") }] : List JobState),
      j.dependsOn = []) ∧
    DagExecuteModel [dfltJob, { dfltJob with work := ("", some "x") }]
      = ExecuteModel [dfltJob, { dfltJob with work := ("", some "x") }] :=
  ⟨by decide, dag_equals_flat_without_deps _ (by decide)⟩

/-! Correctness of the Kahn traversal of `IsAcyclic` (claims C1 and C2).
First, what one pass of the inner loop does to the count map and to the
queue. -/

theorem stepDeps_count : ∀ (ds : List Nat) (count : Nat → Int) (queue : List Nat) (x : Nat),
    (stepDeps ds count queue).1 x = count x - (ds.count x : Int)
  | [], count, queue, x => by simp [stepDeps]
  | t :: rest, count, queue, x => by
      rw [show stepDeps (t :: rest) count queue
          = stepDeps rest (fun j => if j = t then count j - 1 else count j)
              (if count t - 1 = 0 then queue ++ [t] else queue) from rfl]
      rw [stepDeps_count rest _ _ x, List.count_cons]
      by_cases hx : x = t
      · subst hx
        simp only [if_pos rfl, beq_self_eq_true, if_true]
        push_cast
        ring
      · have ht : (t == x) = false := by
          simp [Ne.symm hx]
        rw [if_neg hx, ht, if_neg (by decide : ¬ (false = true))]
        push_cast
        ring

theorem stepDeps_queue_count :
    ∀ (ds : List Nat) (count : Nat → Int) (queue : List Nat) (x : Nat),
      ((stepDeps ds count queue).2.count x : Int)
        = (queue.count x : Int)
          + (if 0 < count x ∧ count x ≤ (ds.count x : Int) then 1 else 0)
  | [], count, queue, x => by
      rw [show (stepDeps [] count queue).2 = queue from rfl]
      rw [if_neg (by
        rintro ⟨h1, h2⟩
        simp only [List.count_nil] at h2
        omega)]
      omega
  | t :: rest, count, queue, x => by
      rw [show stepDeps (t :: rest) count queue
          = stepDeps rest (fun j => if j = t then count j - 1 else count j)
              (if count t - 1 = 0 then queue ++ [t] else queue) from rfl]
      rw [stepDeps_queue_count rest _ _ x, List.count_cons]
      by_cases hx : x = t
      · subst hx
        simp only [if_pos rfl, beq_self_eq_true, if_true]
        by_cases hz : count x - 1 = 0
        · rw [if_pos hz, List.count_append, List.count_cons, List.count_nil,
            beq_self_eq_true, if_pos rfl]
          push_cast
          split_ifs <;> omega
        · rw [if_neg hz]
          push_cast
          split_ifs <;> omega
      · have ht : (t == x) = false := by
          simp [Ne.symm hx]
        rw [ht, if_neg (by decide : ¬ (false = true))]
        have hqx : ((if count t - 1 = 0 then queue ++ [t] else queue).count x : Int)
            = (queue.count x : Int) := by
          split_ifs
          · rw [List.count_append, List.count_cons, List.count_nil, ht,
              if_neg (by decide : ¬ (false = true))]
            push_cast
            ring
          · rfl
        rw [hqx]
        push_cast
        split_ifs <;> omega

theorem mem_stepDeps_queue (ds : List Nat) (count : Nat → Int) (queue : List Nat) (x : Nat) :
    x ∈ (stepDeps ds count queue).2 ↔
      (x ∈ queue ∨ (0 < count x ∧ count x ≤ (ds.count x : Int))) := by
  have h := stepDeps_queue_count ds count queue x
  constructor
  · intro hx
    have hpos : 0 < (stepDeps ds count queue).2.count x := List.count_pos_iff.mpr hx
    by_cases hc : 0 < count x ∧ count x ≤ (ds.count x : Int)
    · exact Or.inr hc
    · rw [if_neg hc] at h
      refine Or.inl (List.count_pos_iff.mp ?_)
      omega
  · intro h2
    refine List.count_pos_iff.mp ?_
    rcases h2 with hq | hc
    · have := List.count_pos_iff.mpr hq
      rcases em (0 < count x ∧ count x ≤ (ds.count x : Int)) with hc | hc
      · rw [if_pos hc] at h
        omega
      · rw [if_neg hc] at h
        omega
    · rw [if_pos hc] at h
      omega

/-! The dependent-count initialisation of `IsAcyclic` as a sum of
multiplicities, and the ghost quantity `procCnt` against it. -/

theorem bumpAll_eq : ∀ (ds : List Nat) (c : Nat → Int) (x : Nat),
    bumpAll c ds x = c x + (ds.count x : Int)
  | [], c, x => by simp [bumpAll]
  | t :: rest, c, x => by
      rw [show bumpAll c (t :: rest)
          = bumpAll (fun j => if j = t then c j + 1 else c j) rest from rfl]
      rw [bumpAll_eq rest _ x, List.count_cons]
      by_cases hx : x = t
      · subst hx
        simp only [if_pos rfl, beq_self_eq_true, if_true]
        push_cast
        ring
      · have ht : (t == x) = false := by
          simp [Ne.symm hx]
        rw [if_neg hx, ht, if_neg (by decide : ¬ (false = true))]
        push_cast
        ring

theorem foldl_bumpAll_eq : ∀ (L : List (List Nat)) (c : Nat → Int) (x : Nat),
    (L.foldl bumpAll c) x = c x + (((L.map (fun ds => ds.count x)).sum : Nat) : Int)
  | [], c, x => by simp
  | ds :: L, c, x => by
      rw [List.foldl_cons, foldl_bumpAll_eq L _ x, bumpAll_eq ds c x,
        List.map_cons, List.sum_cons]
      push_cast
      ring

theorem initCount_eq (deps : List (List Nat)) (x : Nat) :
    initCount deps x = (((deps.map (fun ds => ds.count x)).sum : Nat) : Int) := by
  rw [initCount, foldl_bumpAll_eq]
  simp

theorem initCount_eq_range (deps : List (List Nat)) (x : Nat) :
    initCount deps x
      = ((((List.range deps.length).map (fun i => (depsAt deps i).count x)).sum : Nat) : Int) := by
  rw [initCount_eq]
  have h := congrArg (List.map (fun ds : List Nat => ds.count x)) (map_getD_range [] deps)
  rw [List.map_map] at h
  rw [← h]
  rfl

theorem procCnt_append (deps : List (List Nat)) (P1 P2 : List Nat) (x : Nat) :
    procCnt deps (P1 ++ P2) x = procCnt deps P1 x + procCnt deps P2 x := by
  simp [procCnt]

theorem procCnt_singleton (deps : List (List Nat)) (p x : Nat) :
    procCnt deps [p] x = ((depsAt deps p).count x : Int) := by
  simp [procCnt]

theorem procCnt_cast (deps : List (List Nat)) (P : List Nat) (x : Nat) :
    procCnt deps P x = (((P.map (fun p => (depsAt deps p).count x)).sum : Nat) : Int) := by
  rw [procCnt, Nat.cast_list_sum, List.map_map]
  rfl

theorem procCnt_le_initCount (deps : List (List Nat)) (P : List Nat) (x : Nat)
    (hnd : P.Nodup) (hlt : ∀ p ∈ P, p < deps.length) :
    procCnt deps P x ≤ initCount deps x := by
  rw [procCnt_cast, initCount_eq_range]
  refine Nat.cast_le.mpr ?_
  rw [← List.sum_toFinset _ hnd, ← List.sum_toFinset _ (List.nodup_range deps.length)]
  refine Finset.sum_le_sum_of_subset ?_
  intro a ha
  rw [List.mem_toFinset] at ha ⊢
  exact List.mem_range.mpr (hlt a ha)

theorem procCnt_eq_iff (deps : List (List Nat)) (P : List Nat) (x : Nat)
    (hnd : P.Nodup) (hlt : ∀ p ∈ P, p < deps.length) :
    procCnt deps P x = initCount deps x ↔ depsDone deps P x := by
  rw [procCnt_cast, initCount_eq_range, Nat.cast_inj]
  rw [← List.sum_toFinset _ hnd, ← List.sum_toFinset _ (List.nodup_range deps.length)]
  have hsub : P.toFinset ⊆ (List.range deps.length).toFinset := by
    intro a ha
    rw [List.mem_toFinset] at ha ⊢
    exact List.mem_range.mpr (hlt a ha)
  constructor
  · intro heq i hi hmem
    by_contra hip
    have hstrict : P.toFinset.sum (fun p => (depsAt deps p).count x)
        < (List.range deps.length).toFinset.sum (fun p => (depsAt deps p).count x) := by
      exact Finset.sum_lt_sum_of_subset hsub
        (List.mem_toFinset.mpr (List.mem_range.mpr hi))
        (fun hc => hip (List.mem_toFinset.mp hc))
        (List.count_pos_iff.mpr hmem)
        (fun jj _ _ => Nat.zero_le _)
    omega
  · intro hdd
    refine Finset.sum_subset hsub ?_
    intro i hit hip
    rw [List.mem_toFinset, List.mem_range] at hit
    rw [List.mem_toFinset] at hip
    refine List.count_eq_zero.mpr ?_
    intro hmem
    exact hip (hdd i hit hmem)

theorem initCount_eq_zero_iff (deps : List (List Nat)) (x : Nat) :
    initCount deps x = 0 ↔ ∀ i, i < deps.length → x ∉ depsAt deps i := by
  rw [initCount_eq_range, Nat.cast_eq_zero, List.sum_eq_zero_iff]
  constructor
  · intro h i hi hmem
    have hz : (depsAt deps i).count x = 0 :=
      h _ (List.mem_map.mpr ⟨i, List.mem_range.mpr hi, rfl⟩)
    rw [List.count_eq_zero] at hz
    exact hz hmem
  · intro h y hy
    obtain ⟨i, hi, rfl⟩ := List.mem_map.mp hy
    exact List.count_eq_zero.mpr (h i (List.mem_range.mp hi))

/-! The Kahn invariant: initial state and preservation. -/

theorem indexOf_append_not_mem {α : Type _} [DecidableEq α] :
    ∀ (l : List α) (a : α), a ∉ l → (l ++ [a]).indexOf a = l.length
  | [], a, _ => by simp [List.indexOf_cons_self]
  | x :: l, a, h => by
      have hne : x ≠ a := fun he => h (by simp [he])
      rw [List.cons_append, List.indexOf_cons_ne _ hne,
        indexOf_append_not_mem l a (fun hl => h (by simp [hl]))]
      rfl

theorem depsAt_mem (deps : List (List Nat)) (a : Nat) (ha : a < deps.length) :
    depsAt deps a ∈ deps := by
  rw [depsAt, List.getD_eq_getElem _ _ ha]
  exact List.getElem_mem ha

theorem depsDone_mono (deps : List (List Nat)) {P1 P2 : List Nat}
    (hsub : ∀ y ∈ P1, y ∈ P2) {x : Nat} (h : depsDone deps P1 x) :
    depsDone deps P2 x :=
  fun i hi hm => hsub i (h i hi hm)

theorem kinv_count_zero {deps : List (List Nat)} {P Q : List Nat} {count : Nat → Int}
    (inv : KInv deps P Q count) :
    ∀ x, (x ∈ P ∨ x ∈ Q) → count x = 0 := by
  intro x hx
  have hndP : P.Nodup := (List.nodup_append.mp inv.hnd).1
  have hltP : ∀ p ∈ P, p < deps.length :=
    fun p hp => inv.hlt p (List.mem_append.mpr (Or.inl hp))
  have hdd : depsDone deps P x := by
    rcases hx with hxP | hxQ
    · intro i hi hm
      exact (inv.hord x hxP i hi hm).1
    · exact inv.hqd x hxQ
  have heq := (procCnt_eq_iff deps P x hndP hltP).mpr hdd
  rw [inv.hc x, heq]
  ring

theorem kinv_init (deps : List (List Nat)) :
    KInv deps [] (initQueue deps) (initCount deps) := by
  refine ⟨?_, ?_, ?_, ?_, ?_, ?_⟩
  · intro x
    rw [show procCnt deps [] x = 0 from rfl]
    ring
  · rw [List.nil_append, initQueue]
    exact (List.nodup_range deps.length).filter _
  · intro x hx
    rw [List.nil_append, initQueue] at hx
    exact List.mem_range.mp (List.mem_of_mem_filter hx)
  · intro x hx
    rw [initQueue, List.mem_filter] at hx
    have hz : initCount deps x = 0 := by
      have := hx.2
      simpa using this
    intro i hi hm
    exact absurd hm ((initCount_eq_zero_iff deps x).mp hz i hi)
  · intro x hx
    exact absurd hx (by simp)
  · intro x hxlt hdd
    right
    rw [initQueue, List.mem_filter]
    refine ⟨List.mem_range.mpr hxlt, ?_⟩
    have hz : initCount deps x = 0 := by
      rw [initCount_eq_zero_iff]
      intro i hi hm
      exact absurd (hdd i hi hm) (by simp)
    simp [hz]

theorem kinv_step {deps : List (List Nat)} (wf : WFdeps deps)
    {P Q : List Nat} {count : Nat → Int} {a : Nat}
    (inv : KInv deps P (a :: Q) count) :
    KInv deps (P ++ [a]) (stepDeps (depsAt deps a) count Q).2
      (stepDeps (depsAt deps a) count Q).1 := by
  have ha : a < deps.length := inv.hlt a (by simp)
  have hndP : P.Nodup := (List.nodup_append.mp inv.hnd).1
  have haP : a ∉ P := by
    intro hm
    have hdisj := (List.nodup_append.mp inv.hnd).2.2
    exact hdisj hm (by simp)
  have hnd2 : (P ++ [a]).Nodup := by
    have h := inv.hnd
    rw [List.append_cons] at h
    exact (List.nodup_append.mp h).1
  have hlt2 : ∀ p ∈ P ++ [a], p < deps.length := by
    intro p hp
    rcases List.mem_append.mp hp with h | h
    · exact inv.hlt p (List.mem_append.mpr (Or.inl h))
    · rw [List.mem_singleton.mp h]
      exact ha
  have hdda : depsDone deps P a := inv.hqd a (by simp)
  have hc2 : ∀ x, (stepDeps (depsAt deps a) count Q).1 x
      = initCount deps x - procCnt deps (P ++ [a]) x := by
    intro x
    rw [stepDeps_count, inv.hc x, procCnt_append, procCnt_singleton]
    ring
  have hmemq2 : ∀ x, x ∈ (stepDeps (depsAt deps a) count Q).2 ↔
      (x ∈ Q ∨ (0 < count x ∧ count x ≤ ((depsAt deps a).count x : Int))) :=
    fun x => mem_stepDeps_queue _ _ _ x
  refine ⟨hc2, ?_, ?_, ?_, ?_, ?_⟩
  · -- nodup of (P ++ [a]) ++ Q2
    rw [List.nodup_iff_count_le_one]
    intro x
    have hold : (P ++ a :: Q).count x ≤ 1 := List.nodup_iff_count_le_one.mp inv.hnd x
    rw [List.count_append, List.count_cons] at hold
    have hq2 := stepDeps_queue_count (depsAt deps a) count Q x
    rw [List.count_append, List.count_append, List.count_cons, List.count_nil]
    by_cases hcnd : 0 < count x ∧ count x ≤ ((depsAt deps a).count x : Int)
    · have hnx : ¬(x ∈ P ∨ x ∈ a :: Q) := by
        intro hm
        have := kinv_count_zero inv x hm
        omega
      have hxP : P.count x = 0 :=
        List.count_eq_zero.mpr (fun h => hnx (Or.inl h))
      have hxa : (a == x) = false := by
        have : x ≠ a := fun he => hnx (Or.inr (by simp [he]))
        simp [Ne.symm this]
      have hxQ : Q.count x = 0 :=
        List.count_eq_zero.mpr (fun h => hnx (Or.inr (by simp [h])))
      rw [if_pos hcnd] at hq2
      rw [hxa, if_neg (by decide : ¬ (false = true))]
      omega
    · rw [if_neg hcnd] at hq2
      omega
  · -- bounds
    intro x hx
    rcases List.mem_append.mp hx with h | h
    · exact hlt2 x h
    · rcases (hmemq2 x).mp h with hq | hcnd
      · exact inv.hlt x (by simp [hq])
      · have hpos : 0 < (depsAt deps a).count x := by
          rcases hcnd with ⟨h1, h2⟩
          by_contra hz
          have : (depsAt deps a).count x = 0 := by omega
          rw [this] at h2
          omega
        have hxmem : x ∈ depsAt deps a := List.count_pos_iff.mp hpos
        exact wf _ (depsAt_mem deps a ha) x hxmem
  · -- queue jobs have all dependents processed
    intro x hx
    rcases (hmemq2 x).mp hx with hq | hcnd
    · exact depsDone_mono deps (fun y hy => List.mem_append.mpr (Or.inl hy))
        (inv.hqd x (by simp [hq]))
    · have hle : procCnt deps (P ++ [a]) x ≤ initCount deps x :=
        procCnt_le_initCount deps (P ++ [a]) x hnd2 hlt2
    -- count after the step is ≤ 0, so procCnt (P ++ [a]) = initCount
      have hc0 : (stepDeps (depsAt deps a) count Q).1 x ≤ 0 := by
        rw [stepDeps_count]
        omega
      rw [hc2 x] at hc0
      exact (procCnt_eq_iff deps (P ++ [a]) x hnd2 hlt2).mp (by omega)
  · -- order: every dependent of a processed job precedes it
    intro x hx i hi hm
    rcases List.mem_append.mp hx with hxP | hxa
    · obtain ⟨hiP, hidx⟩ := inv.hord x hxP i hi hm
      refine ⟨List.mem_append.mpr (Or.inl hiP), ?_⟩
      rw [List.indexOf_append_of_mem hiP, List.indexOf_append_of_mem hxP]
      exact hidx
    · have hxa2 : x = a := List.mem_singleton.mp hxa
      subst hxa2
      have hiP : i ∈ P := hdda i hi hm
      refine ⟨List.mem_append.mpr (Or.inl hiP), ?_⟩
      rw [List.indexOf_append_of_mem hiP, indexOf_append_not_mem P x haP]
      exact List.indexOf_lt_length.mpr hiP
  · -- closure
    intro x hxlt hdd2
    by_cases hddP : depsDone deps P x
    · rcases inv.hcl x hxlt hddP with hxP | hxaq
      · exact Or.inl (List.mem_append.mpr (Or.inl hxP))
      · rcases List.mem_cons.mp hxaq with hxa | hxQ
        · exact Or.inl (List.mem_append.mpr (Or.inr (by simp [hxa])))
        · exact Or.inr ((hmemq2 x).mpr (Or.inl hxQ))
    · right
      refine (hmemq2 x).mpr (Or.inr ?_)
      have hexists : ∃ i, i < deps.length ∧ x ∈ depsAt deps i ∧ i ∉ P := by
        by_contra hno
        push_neg at hno
        exact hddP (fun i hi hm => hno i hi hm)
      obtain ⟨i, hi, hmem, hiP⟩ := hexists
      have hia : i = a := by
        rcases List.mem_append.mp (hdd2 i hi hmem) with h | h
        · exact absurd h hiP
        · exact List.mem_singleton.mp h
      subst hia
      have hdcount : 0 < (depsAt deps i).count x := List.count_pos_iff.mpr hmem
      have heqp : procCnt deps (P ++ [i]) x = initCount deps x :=
        (procCnt_eq_iff deps (P ++ [i]) x hnd2 hlt2).mpr hdd2
      have hcx : count x = ((depsAt deps i).count x : Int) := by
        have h1 := inv.hc x
        rw [procCnt_append, procCnt_singleton] at heqp
        omega
      constructor
      · rw [hcx]
        exact_mod_cast hdcount
      · rw [hcx]

/-! Running the loop from the invariant: the processed list at the end. -/

theorem kahnLoop_eq_len (deps : List (List Nat)) :
    ∀ (fuel : Nat) (Q : List Nat) (count : Nat → Int) (idx : Nat),
      kahnLoop deps fuel Q count idx = idx + (kahnLoopP deps fuel Q count).length
  | fuel, [], count, idx => by cases fuel <;> rfl
  | 0, _ :: _, _, idx => by rfl
  | fuel + 1, q :: rest, count, idx => by
      rw [show kahnLoop deps (fuel + 1) (q :: rest) count idx
          = kahnLoop deps fuel (stepDeps (depsAt deps q) count rest).2
              (stepDeps (depsAt deps q) count rest).1 (idx + 1) from rfl]
      rw [show kahnLoopP deps (fuel + 1) (q :: rest) count
          = q :: kahnLoopP deps fuel (stepDeps (depsAt deps q) count rest).2
              (stepDeps (depsAt deps q) count rest).1 from rfl]
      rw [kahnLoop_eq_len deps fuel _ _ (idx + 1), List.length_cons]
      omega

theorem length_le_of_nodup_bound (T : List Nat) (n : Nat) (hnd : T.Nodup)
    (hlt : ∀ x ∈ T, x < n) : T.length ≤ n := by
  have hsub : T.toFinset ⊆ (List.range n).toFinset := by
    intro a ha
    rw [List.mem_toFinset] at ha ⊢
    exact List.mem_range.mpr (hlt a ha)
  have h1 := List.toFinset_card_of_nodup hnd
  have h2 := List.toFinset_card_of_nodup (List.nodup_range n)
  have h3 := Finset.card_le_card hsub
  rw [h1, h2, List.length_range] at h3
  exact h3

theorem all_mem_of_nodup_bound (T : List Nat) (n : Nat) (hnd : T.Nodup)
    (hlt : ∀ x ∈ T, x < n) (hlen : n ≤ T.length) : ∀ y, y < n → y ∈ T := by
  intro y hy
  have hsub : T.toFinset ⊆ (List.range n).toFinset := by
    intro a ha
    rw [List.mem_toFinset] at ha ⊢
    exact List.mem_range.mpr (hlt a ha)
  have hcard : (List.range n).toFinset.card ≤ T.toFinset.card := by
    rw [List.toFinset_card_of_nodup hnd, List.toFinset_card_of_nodup (List.nodup_range n),
      List.length_range]
    exact hlen
  have heq : T.toFinset = (List.range n).toFinset :=
    Finset.eq_of_subset_of_card_le hsub hcard
  have hmem : y ∈ (List.range n).toFinset :=
    List.mem_toFinset.mpr (List.mem_range.mpr hy)
  rw [← heq] at hmem
  exact List.mem_toFinset.mp hmem

theorem kahn_main {deps : List (List Nat)} (wf : WFdeps deps) :
    ∀ (fuel : Nat) (Q : List Nat) (count : Nat → Int) (P : List Nat),
      KInv deps P Q count → deps.length ≤ fuel + P.length →
      KFinal deps (P ++ kahnLoopP deps fuel Q count)
  | fuel, [], count, P, inv, _ => by
      have hP : kahnLoopP deps fuel [] count = [] := by cases fuel <;> rfl
      rw [hP, List.append_nil]
      refine ⟨(List.nodup_append.mp inv.hnd).1,
        fun x hx => inv.hlt x (by simp [hx]),
        fun x hxlt hdd => ?_, inv.hord⟩
      rcases inv.hcl x hxlt hdd with h | h
      · exact h
      · exact absurd h (by simp)
  | 0, q :: rest, count, P, inv, hfuel => by
      exfalso
      have hndP : P.Nodup := (List.nodup_append.mp inv.hnd).1
      have hltP : ∀ x ∈ P, x < deps.length := fun x hx => inv.hlt x (by simp [hx])
      have hq : q ∈ P :=
        all_mem_of_nodup_bound P deps.length hndP hltP (by simpa using hfuel) q
          (inv.hlt q (by simp))
      have hdisj := (List.nodup_append.mp inv.hnd).2.2
      exact hdisj hq (by simp)
  | fuel + 1, q :: rest, count, P, inv, hfuel => by
      have inv2 := kinv_step wf inv
      have hfuel2 : deps.length ≤ fuel + (P ++ [q]).length := by
        rw [List.length_append, List.length_singleton]
        omega
      have h := kahn_main wf fuel _ _ (P ++ [q]) inv2 hfuel2
      rw [show kahnLoopP deps (fuel + 1) (q :: rest) count
          = q :: kahnLoopP deps fuel (stepDeps (depsAt deps q) count rest).2
              (stepDeps (depsAt deps q) count rest).1 from rfl]
      rw [List.append_cons]
      exact h

theorem kahn_final (deps : List (List Nat)) (wf : WFdeps deps) :
    KFinal deps (kahnLoopP deps (kahnFuel deps) (initQueue deps) (initCount deps)) := by
  have h := kahn_main wf (kahnFuel deps) (initQueue deps) (initCount deps) []
    (kinv_init deps) (by simp [kahnFuel])
  simpa using h

theorem acyclic_all_processed (deps : List (List Nat)) (wf : WFdeps deps)
    (hA : AcyclicDeps deps) :
    ∀ y, y < deps.length →
      y ∈ kahnLoopP deps (kahnFuel deps) (initQueue deps) (initCount deps) := by
  obtain ⟨hnd, hlt, hcl, hord⟩ := kahn_final deps wf
  by_contra hno
  push_neg at hno
  obtain ⟨y0, hy0, hy0T⟩ := hno
  have hstep : ∀ x, ∃ i, x < deps.length →
      x ∉ kahnLoopP deps (kahnFuel deps) (initQueue deps) (initCount deps) →
      (i < deps.length ∧
        i ∉ kahnLoopP deps (kahnFuel deps) (initQueue deps) (initCount deps) ∧
        x ∈ depsAt deps i) := by
    intro x
    by_cases hx : x < deps.length ∧
        x ∉ kahnLoopP deps (kahnFuel deps) (initQueue deps) (initCount deps)
    · have hnd2 : ¬ depsDone deps
          (kahnLoopP deps (kahnFuel deps) (initQueue deps) (initCount deps)) x :=
        fun hdd => hx.2 (hcl x hx.1 hdd)
      rw [depsDone] at hnd2
      push_neg at hnd2
      obtain ⟨i, hi, hm, hiT⟩ := hnd2
      exact ⟨i, fun _ _ => ⟨hi, hiT, hm⟩⟩
    · exact ⟨0, fun h1 h2 => absurd ⟨h1, h2⟩ hx⟩
  choose f hf using hstep
  have hiter : ∀ k, (f^[k] y0) < deps.length ∧
      (f^[k] y0) ∉ kahnLoopP deps (kahnFuel deps) (initQueue deps) (initCount deps) := by
    intro k
    induction k with
    | zero => exact ⟨hy0, hy0T⟩
    | succ k ih =>
        rw [Function.iterate_succ_apply']
        obtain ⟨h1, h2, _⟩ := hf _ ih.1 ih.2
        exact ⟨h1, h2⟩
  have hdep : ∀ k, Dep deps (f^[k + 1] y0) (f^[k] y0) := by
    intro k
    rw [Function.iterate_succ_apply']
    exact (hf _ (hiter k).1 (hiter k).2).2.2
  have hchain : ∀ a b, a < b → Relation.TransGen (Dep deps) (f^[b] y0) (f^[a] y0) := by
    intro a b hab
    induction b with
    | zero => omega
    | succ b ih =>
        by_cases hb : a = b
        · subst hb
          exact Relation.TransGen.single (hdep a)
        · exact Relation.TransGen.head (hdep b) (ih (by omega))
  have hmapsto : ∀ k ∈ Finset.range (deps.length + 1),
      (f^[k] y0) ∈ Finset.range deps.length :=
    fun k _ => Finset.mem_range.mpr (hiter k).1
  obtain ⟨k1, _, k2, _, hne, heq⟩ :=
    Finset.exists_ne_map_eq_of_card_lt_of_maps_to (by simp) hmapsto
  rcases Nat.lt_or_ge k1 k2 with h | h
  · have hc := hchain k1 k2 h
    rw [heq] at hc
    exact hA _ hc
  · have hlt2 : k2 < k1 := by omega
    have hc := hchain k2 k1 hlt2
    rw [← heq] at hc
    exact hA _ hc

theorem kahn_complete (deps : List (List Nat)) (wf : WFdeps deps)
    (hA : AcyclicDeps deps) : isAcyclic deps = true := by
  rw [isAcyclic]
  split
  · rfl
  · obtain ⟨hnd, hlt, _, _⟩ := kahn_final deps wf
    have hall := acyclic_all_processed deps wf hA
    have h1 : deps.length ≤
        (kahnLoopP deps (kahnFuel deps) (initQueue deps) (initCount deps)).length := by
      have hsub : (List.range deps.length).toFinset ⊆
          (kahnLoopP deps (kahnFuel deps) (initQueue deps) (initCount deps)).toFinset := by
        intro a ha
        rw [List.mem_toFinset] at ha ⊢
        exact hall a (List.mem_range.mp ha)
      have hc := Finset.card_le_card hsub
      rw [List.toFinset_card_of_nodup (List.nodup_range _), List.length_range,
        List.toFinset_card_of_nodup hnd] at hc
      exact hc
    have h2 := length_le_of_nodup_bound _ deps.length hnd hlt
    rw [kahnLoop_eq_len]
    have h3 :
        (kahnLoopP deps (kahnFuel deps) (initQueue deps) (initCount deps)).length
          = deps.length := by omega
    simp [h3]

theorem kahn_sound (deps : List (List Nat)) (wf : WFdeps deps)
    (ht : isAcyclic deps = true) : AcyclicDeps deps := by
  intro x hcyc
  rw [isAcyclic] at ht
  by_cases hn : deps.length < 1
  · have hdeps : deps = [] := List.length_eq_zero.mp (by omega)
    subst hdeps
    cases hcyc with
    | single h => simp [Dep, depsAt] at h
    | tail h1 h2 => simp [Dep, depsAt] at h2
  · rw [if_neg hn, kahnLoop_eq_len] at ht
    have hT :
        (kahnLoopP deps (kahnFuel deps) (initQueue deps) (initCount deps)).length
          = deps.length := by
      have h0 : 0 +
          (kahnLoopP deps (kahnFuel deps) (initQueue deps) (initCount deps)).length
            = deps.length := by simpa using ht
      omega
    obtain ⟨hnd, hlt, _, hord⟩ := kahn_final deps wf
    have hall := all_mem_of_nodup_bound _ deps.length hnd hlt (by omega)
    have hdlt : ∀ a b, Dep deps a b →
        (kahnLoopP deps (kahnFuel deps) (initQueue deps) (initCount deps)).indexOf a
          < (kahnLoopP deps (kahnFuel deps) (initQueue deps) (initCount deps)).indexOf b := by
      intro a b hab
      have ha : a < deps.length := by
        by_contra hge
        rw [Dep, depsAt, List.getD_eq_default _ _ (by omega)] at hab
        simp at hab
      have hb : b < deps.length := wf _ (depsAt_mem deps a ha) b hab
      exact (hord b (hall b hb) a ha hab).2
    have hrank : ∀ a b, Relation.TransGen (Dep deps) a b →
        (kahnLoopP deps (kahnFuel deps) (initQueue deps) (initCount deps)).indexOf a
          < (kahnLoopP deps (kahnFuel deps) (initQueue deps) (initCount deps)).indexOf b := by
      intro a b h
      induction h with
      | single h1 => exact hdlt _ _ h1
      | tail _ h2 ih => exact Nat.lt_trans ih (hdlt _ _ h2)
    exact absurd (hrank x x hcyc) (Nat.lt_irrefl _)

/-- C1: IsAcyclic returns true exactly when the dependency graph over the
executor's jobs — one edge per entry of each job's DependsOn list — has no
cycle: the Kahn traversal processes a number of jobs equal to the job count
precisely in that case; and an executor with zero jobs is acyclic. -/
theorem isAcyclic_iff_acyclic (deps : List (List Nat)) (wf : WFdeps deps) :
    (isAcyclic deps = true ↔ AcyclicDeps deps) ∧ isAcyclic [] = true :=
  ⟨⟨kahn_sound deps wf, kahn_complete deps wf⟩, rfl⟩

/-- Witness for C1 on the two-job graph with the single edge 0 → 1. -/
theorem isAcyclic_iff_acyclic_witness :
    WFdeps [[1], []] ∧
    ((isAcyclic [[1], []] = true ↔ AcyclicDeps [[1], []]) ∧ isAcyclic [] = true) :=
  ⟨by unfold WFdeps; decide, isAcyclic_iff_acyclic [[1], []] (by unfold WFdeps; decide)⟩

/-- C2: requesting a DAG run on an executor whose dependency graph has a
cycle reports every job failed with the cyclic-dependency error — one entry
per job, all carrying that error — while the DAG scheduler is never
entered: the job states are returned exactly as given, so every status
stays Pending and no unit of work is invoked. -/
theorem dagExecute_cyclic_rejects_all (jobs : List JobState)
    (wf : WFdeps (jobs.map (fun j => j.dependsOn)))
    (hcyc : ¬ AcyclicDeps (jobs.map (fun j => j.dependsOn)))
    (hinit : ∀ j ∈ jobs, j.status = JobStatePending ∧ j.invoked = false) :
    (DagExecuteModel jobs).2
        = (List.range jobs.length).map (fun i => (i, JobErr.cyclicDependency)) ∧
    (DagExecuteModel jobs).2.length = jobs.length ∧
    (∀ p ∈ (DagExecuteModel jobs).2, p.2 = JobErr.cyclicDependency) ∧
    (DagExecuteModel jobs).1 = jobs ∧
    (∀ j ∈ (DagExecuteModel jobs).1, j.status = JobStatePending ∧ j.invoked = false) := by
  have hfalse : isAcyclic (jobs.map (fun j => j.dependsOn)) = false := by
    cases h : isAcyclic (jobs.map (fun j => j.dependsOn)) with
    | false => rfl
    | true => exact absurd (kahn_sound _ wf h) hcyc
  rw [DagExecuteModel, if_neg (by simp [hfalse])]
  refine ⟨rfl, by simp, ?_, rfl, hinit⟩
  intro p hp
  obtain ⟨i, _, rfl⟩ := List.mem_map.mp hp
  rfl

/-- Witness for C2 on the two-job cycle 0 → 1 → 0. -/
theorem dagExecute_cyclic_rejects_all_witness :
    WFdeps (([{ dfltJob with dependsOn := [1] },
              { dfltJob with dependsOn := [0] }] : List JobState).map
        (fun j => j.dependsOn)) ∧
    ¬ AcyclicDeps (([{ dfltJob with dependsOn := [1] },
              { dfltJob with dependsOn := [0] }] : List JobState).map
        (fun j => j.dependsOn)) ∧
    (∀ j ∈ ([{ dfltJob with dependsOn := [1] },
              { dfltJob with dependsOn := [0] }] : List JobState),
      j.status = JobStatePending ∧ j.invoked = false) ∧
    ((DagExecuteModel [{ dfltJob with dependsOn := [1] },
        { dfltJob with dependsOn := [0] }]).2
        = (List.range ([{ dfltJob with dependsOn := [1] },
              { dfltJob with dependsOn := [0] }] : List JobState).length).map
            (fun i => (i, JobErr.cyclicDependency)) ∧
     (DagExecuteModel [{ dfltJob with dependsOn := [1] },
        { dfltJob with dependsOn := [0] }]).2.length
        = ([{ dfltJob with dependsOn := [1] },
              { dfltJob with dependsOn := [0] }] : List JobState).length ∧
     (∀ p ∈ (DagExecuteModel [{ dfltJob with dependsOn := [1] },
        { dfltJob with dependsOn := [0] }]).2, p.2 = JobErr.cyclicDependency) ∧
     (DagExecuteModel [{ dfltJob with dependsOn := [1] },
        { dfltJob with dependsOn := [0] }]).1
        = [{ dfltJob with dependsOn := [1] }, { dfltJob with dependsOn := [0] }] ∧
     (∀ j ∈ (DagExecuteModel [{ dfltJob with dependsOn := [1] },
        { dfltJob with dependsOn := [0] }]).1,
        j.status = JobStatePending ∧ j.invoked = false)) :=
  ⟨by unfold WFdeps; decide,
   by
     intro h
     refine h 0 (@Relation.TransGen.head Nat _ 0 1 0 ?_ (Relation.TransGen.single ?_))
     · unfold Dep
       decide
     · unfold Dep
       decide,
   by decide,
   dagExecute_cyclic_rejects_all _ (by unfold WFdeps; decide)
     (by
       intro h
       refine h 0 (@Relation.TransGen.head Nat _ 0 1 0 ?_ (Relation.TransGen.single ?_))
       · unfold Dep
         decide
       · unfold Dep
         decide)
     (by decide)⟩

end JobExec
